import Mathlib

/-!
# Verification of the mcp-osrs caching and extraction core

A shallow embedding, in Lean 4, of the cache / index / parsing core of the
mcp-osrs server (`src/index.ts` and the `src/unnamed/part_*` snapshots of the
same module).  JavaScript `Map` objects are modelled as insertion-ordered
association lists, JavaScript numbers that hold integer ids/counts as `Nat`,
decimal rarities as `ℚ` (exact rationals standing for the floating-point
values), and strings as Lean `String` (a sequence of characters; the data in
question is ASCII).  Asynchronous state (the request-deduplication map, the
osrsbox disk/memory cache) is passed explicitly.
-/

namespace McpOsrs

/-! ## Insertion-ordered maps (the JavaScript `Map` semantics)

`Map.set` overwrites an existing key in place (keeping its position) and
appends a fresh key at the end; `Map.delete` removes the entry of the key;
iteration order is insertion order. -/

/-- `Map.get`: the value stored for key `k`, if any. -/
def mapFind {κ α : Type} [DecidableEq κ] (k : κ) : List (κ × α) → Option α
  | [] => none
  | (k', v) :: rest => if k' = k then some v else mapFind k rest

/-- `Map.set`: overwrite in place if the key is present, else append. -/
def mapSet {κ α : Type} [DecidableEq κ] (k : κ) (v : α) : List (κ × α) → List (κ × α)
  | [] => [(k, v)]
  | (k', v') :: rest => if k' = k then (k, v) :: rest else (k', v') :: mapSet k v rest

/-- `Map.delete`: remove the entry holding key `k` (the first one; keys are
unique in a JavaScript `Map`). -/
def mapDelete {κ α : Type} [DecidableEq κ] (k : κ) : List (κ × α) → List (κ × α)
  | [] => []
  | (k', v') :: rest => if k' = k then rest else (k', v') :: mapDelete k rest

/-- The keys of a map, in insertion order. -/
def mapKeys {κ α : Type} (m : List (κ × α)) : List κ := m.map Prod.fst

theorem mapFind_mapSet_self {κ α : Type} [DecidableEq κ] (k : κ) (v : α)
    (m : List (κ × α)) : mapFind k (mapSet k v m) = some v := by
  induction m with
  | nil => simp [mapSet, mapFind]
  | cons hd tl ih =>
    obtain ⟨k', v'⟩ := hd
    by_cases h : k' = k <;> simp [mapSet, mapFind, h, ih]

theorem mapFind_mapSet_ne {κ α : Type} [DecidableEq κ] {k k' : κ} (v : α)
    (m : List (κ × α)) (h : k' ≠ k) :
    mapFind k' (mapSet k v m) = mapFind k' m := by
  have h' : ¬ (k = k') := fun e => h e.symm
  induction m with
  | nil => simp [mapSet, mapFind, h']
  | cons hd tl ih =>
    obtain ⟨k₀, v₀⟩ := hd
    by_cases h₀ : k₀ = k
    · subst h₀
      simp [mapSet, mapFind, h']
    · simp only [mapSet, if_neg h₀, mapFind]
      by_cases h₁ : k₀ = k' <;> simp [h₁, ih]

theorem mapFind_eq_none_of_not_mem {κ α : Type} [DecidableEq κ] {k : κ}
    {m : List (κ × α)} (h : k ∉ mapKeys m) : mapFind k m = none := by
  induction m with
  | nil => rfl
  | cons hd tl ih =>
    obtain ⟨k', v'⟩ := hd
    simp only [mapKeys, List.map_cons, List.mem_cons] at h
    push_neg at h
    have h1 : ¬ (k' = k) := fun e => h.1 e.symm
    simp [mapFind, h1, ih (by simpa [mapKeys] using h.2)]

theorem length_mapSet_of_not_mem {κ α : Type} [DecidableEq κ] {k : κ} (v : α)
    {m : List (κ × α)} (h : k ∉ mapKeys m) :
    (mapSet k v m).length = m.length + 1 := by
  induction m with
  | nil => simp [mapSet]
  | cons hd tl ih =>
    obtain ⟨k', v'⟩ := hd
    simp only [mapKeys, List.map_cons, List.mem_cons] at h
    push_neg at h
    have h1 : ¬ (k' = k) := fun e => h.1 e.symm
    simp [mapSet, h1, ih (by simpa [mapKeys] using h.2)]

theorem length_mapSet_le {κ α : Type} [DecidableEq κ] (k : κ) (v : α)
    (m : List (κ × α)) : (mapSet k v m).length ≤ m.length + 1 := by
  induction m with
  | nil => simp [mapSet]
  | cons hd tl ih =>
    obtain ⟨k', v'⟩ := hd
    by_cases h : k' = k
    · simp [mapSet, h]
    · simp only [mapSet, if_neg h, List.length_cons]
      omega

theorem mem_mapKeys_mapSet {κ α : Type} [DecidableEq κ] {a k : κ} (v : α)
    (m : List (κ × α)) :
    a ∈ mapKeys (mapSet k v m) ↔ a ∈ mapKeys m ∨ a = k := by
  induction m with
  | nil => simp [mapSet, mapKeys]
  | cons hd tl ih =>
    obtain ⟨k', v'⟩ := hd
    by_cases h : k' = k
    · subst h
      have e : mapSet k' v ((k', v') :: tl) = (k', v) :: tl := by simp [mapSet]
      rw [e]
      simp only [mapKeys, List.map_cons, List.mem_cons]
      tauto
    · simp only [mapSet, if_neg h, mapKeys, List.map_cons, List.mem_cons]
      have ih' : a ∈ (mapSet k v tl).map Prod.fst ↔ a ∈ tl.map Prod.fst ∨ a = k := ih
      rw [ih']
      tauto

/-! ## Parsing helpers: ASCII digits and leading digit runs -/

/-- ASCII decimal digit test (the regex class `\d`). -/
def isAsciiDigit (c : Char) : Bool := '0' ≤ c && c ≤ '9'

/-- Numeric value of the digit list (what `parseInt(s, 10)` returns on a
non-empty all-digit string, modelled exactly). -/
def parseNatDigits (l : List Char) : Nat :=
  l.foldl (fun acc c => 10 * acc + (c.toNat - '0'.toNat)) 0

/-- The maximal leading run of ASCII digits of a line — the capture of the
regex `^(\d+)` (empty when the line does not start with a digit). -/
def leadingDigitRun (l : List Char) : List Char := l.takeWhile isAsciiDigit

/-- The integer id parsed from the start of a line by `buildIdIndex`:
`line.match(/^(\d+)/)` followed by `parseInt(match[1], 10)`. -/
def leadingIdOf (line : String) : Option Nat :=
  let run := leadingDigitRun line.data
  if run.isEmpty then none else some (parseNatDigits run)

/-! ## `buildIdIndex` (src/index.ts lines 87–118, src/unnamed/part_000
lines 154–185)

The build pass over the cached file lines: for each line, take the maximal
leading digit run; if non-empty, `index.set(id, i)` records the 0-based line
offset (later lines overwrite earlier ones, by `Map.set` semantics). -/

/-- The loop body of `buildIdIndex`, over the lines with their 0-based
offsets starting at `start`. -/
def buildIdIndexAux : List String → Nat → List (Nat × Nat) → List (Nat × Nat)
  | [], _, index => index
  | line :: rest, start, index =>
    buildIdIndexAux rest (start + 1)
      (match leadingIdOf line with
       | some id => mapSet id start index
       | none => index)

/-- `buildIdIndex`, as a pure function of the file's lines. -/
def buildIdIndex (lines : List String) : List (Nat × Nat) :=
  buildIdIndexAux lines 0 []

/-- The entry returned by `getEntryById`. -/
structure IdEntry where
  id : Nat
  name : String
  lineNumber : Nat
  raw : String
  deriving Repr, DecidableEq

/-- `line.split(/\t/)`: split a character list on tab characters. -/
def splitOnTab : List Char → List (List Char)
  | [] => [[]]
  | c :: rest =>
    let r := splitOnTab rest
    if c = '\t' then [] :: r
    else
      match r with
      | [] => [[c]]
      | p :: ps => (c :: p) :: ps

/-- The `name` field computed by `getEntryById`: the line split on tabs; if
at least two parts, everything after the first tab (re-joined on tabs), else
the empty string. -/
def entryNameOf (line : String) : String :=
  let parts := splitOnTab line.data
  if parts.length ≥ 2 then String.mk (List.intercalate ['\t'] (parts.drop 1))
  else ""

/-- `getEntryById` (src/unnamed/part_000 lines 1508–1535), as a pure function
of the file's lines: look the id up in the index, fetch that line, return
`null` when the index misses or the line is missing/empty (`!line`). -/
def getEntryById (lines : List String) (id : Nat) : Option IdEntry :=
  match mapFind id (buildIdIndex lines) with
  | none => none
  | some lineIndex =>
    match lines[lineIndex]? with
    | none => none
    | some line =>
      if line = "" then none
      else some { id := id, name := entryNameOf line,
                  lineNumber := lineIndex + 1, raw := line }

theorem buildIdIndexAux_append (ls : List String) (l : String) (start : Nat)
    (m : List (Nat × Nat)) :
    buildIdIndexAux (ls ++ [l]) start m =
      (match leadingIdOf l with
       | some id => mapSet id (start + ls.length) (buildIdIndexAux ls start m)
       | none => buildIdIndexAux ls start m) := by
  induction ls generalizing start m with
  | nil => cases h : leadingIdOf l <;> simp [buildIdIndexAux, h]
  | cons hd tl ih =>
    have step : buildIdIndexAux ((hd :: tl) ++ [l]) start m =
        buildIdIndexAux (tl ++ [l]) (start + 1)
          (match leadingIdOf hd with
           | some id => mapSet id start m
           | none => m) := rfl
    have step' : buildIdIndexAux (hd :: tl) start m =
        buildIdIndexAux tl (start + 1)
          (match leadingIdOf hd with
           | some id => mapSet id start m
           | none => m) := rfl
    rw [step, ih, step']
    cases h : leadingIdOf l <;> simp [h, Nat.add_assoc, Nat.add_comm 1 tl.length]

/-- The getD value of the appended last element. -/
theorem getD_append_last (ls : List String) (l : String) :
    (ls ++ [l]).getD ls.length "" = l := by
  rw [List.getD_append_right _ _ _ _ (Nat.le_refl _)]
  simp

/-- Characterization of the built index: `id ↦ off` exactly when line `off`
starts with digit run `id` and no later line does. -/
theorem mapFind_buildIdIndex (lines : List String) (id : Nat) (off : Nat) :
    mapFind id (buildIdIndex lines) = some off ↔
      (off < lines.length ∧ leadingIdOf (lines.getD off "") = some id ∧
        ∀ k, off < k → k < lines.length → leadingIdOf (lines.getD k "") ≠ some id) := by
  induction lines using List.reverseRecOn generalizing off with
  | nil => simp [buildIdIndex, buildIdIndexAux, mapFind]
  | append_singleton ls l ih =>
    have hlen : (ls ++ [l]).length = ls.length + 1 := by simp
    unfold buildIdIndex at *
    rw [buildIdIndexAux_append]
    rcases hl : leadingIdOf l with _ | lid
    · -- last line has no leading digit run
      rw [ih]
      constructor
      · rintro ⟨h1, h2, h3⟩
        refine ⟨by omega, by rwa [List.getD_append _ _ _ _ h1], ?_⟩
        intro k hk1 hk2
        rcases Nat.lt_or_ge k ls.length with hk | hk
        · rw [List.getD_append _ _ _ _ hk]; exact h3 k hk1 hk
        · have hke : k = ls.length := by omega
          subst hke
          rw [getD_append_last]
          simp [hl]
      · rintro ⟨h1, h2, h3⟩
        have hoff : off < ls.length := by
          rcases Nat.lt_or_ge off ls.length with h | h
          · exact h
          · exfalso
            have hoe : off = ls.length := by omega
            subst hoe
            rw [getD_append_last] at h2
            simp [hl] at h2
        refine ⟨hoff, by rwa [List.getD_append _ _ _ _ hoff] at h2, ?_⟩
        intro k hk1 hk2
        have := h3 k hk1 (by omega)
        rwa [List.getD_append _ _ _ _ hk2] at this
    · -- last line has leading id `lid`
      by_cases hid : lid = id
      · subst hid
        rw [mapFind_mapSet_self]
        constructor
        · rintro h
          have hoff : off = ls.length := by
            have := h.symm
            simpa using this
          subst hoff
          refine ⟨by omega, ?_, ?_⟩
          · rw [getD_append_last]; exact hl
          · intro k hk1 hk2
            omega
        · rintro ⟨h1, h2, h3⟩
          rcases Nat.lt_or_ge off ls.length with h | h
          · exfalso
            refine h3 ls.length (by omega) (by omega) ?_
            rw [getD_append_last]; exact hl
          · have hoe : off = ls.length := by omega
            simp [hoe]
      · rw [mapFind_mapSet_ne _ _ (fun h => hid h.symm), ih]
        constructor
        · rintro ⟨h1, h2, h3⟩
          refine ⟨by omega, by rwa [List.getD_append _ _ _ _ h1], ?_⟩
          intro k hk1 hk2
          rcases Nat.lt_or_ge k ls.length with hk | hk
          · rw [List.getD_append _ _ _ _ hk]; exact h3 k hk1 hk
          · have hke : k = ls.length := by omega
            subst hke
            rw [getD_append_last, hl]
            intro hcon
            exact hid (by simpa using hcon)
        · rintro ⟨h1, h2, h3⟩
          have hoff : off < ls.length := by
            rcases Nat.lt_or_ge off ls.length with h | h
            · exact h
            · exfalso
              have hoe : off = ls.length := by omega
              subst hoe
              rw [getD_append_last, hl] at h2
              exact hid (by simpa using h2)
          refine ⟨hoff, by rwa [List.getD_append _ _ _ _ hoff] at h2, ?_⟩
          intro k hk1 hk2
          have := h3 k hk1 (by omega)
          rwa [List.getD_append _ _ _ _ hk2] at this

theorem buildIdIndexAux_of_all_none {lines : List String}
    (h : ∀ line ∈ lines, leadingIdOf line = none) (start : Nat)
    (m : List (Nat × Nat)) : buildIdIndexAux lines start m = m := by
  induction lines generalizing start m with
  | nil => rfl
  | cons hd tl ih =>
    have hhd : leadingIdOf hd = none := h hd (by simp)
    show buildIdIndexAux tl (start + 1)
        (match leadingIdOf hd with
         | some id => mapSet id start m
         | none => m) = m
    rw [hhd]
    exact ih (fun l hl => h l (by simp [hl])) _ _

theorem leadingIdOf_ne_empty {line : String} {id : Nat}
    (h : leadingIdOf line = some id) : line ≠ "" := by
  intro hcon
  subst hcon
  simp [leadingIdOf, leadingDigitRun] at h

/-- **C1.** For every file, the ID index built by `buildIdIndex` contains
exactly those integer IDs that occur as a maximal leading run of ASCII
digits on some line of the file, each mapped to the 0-based offset of (the
last) such line; a file in which no line starts with a digit yields an
empty index. -/
theorem buildIdIndex_exact (lines : List String) :
    (∀ id off, mapFind id (buildIdIndex lines) = some off →
        off < lines.length ∧ leadingIdOf (lines.getD off "") = some id) ∧
    (∀ id, (∃ i, i < lines.length ∧ leadingIdOf (lines.getD i "") = some id) ↔
        (mapFind id (buildIdIndex lines)).isSome) ∧
    ((∀ line ∈ lines, leadingIdOf line = none) → buildIdIndex lines = []) := by
  refine ⟨?_, ?_, ?_⟩
  · intro id off h
    have := (mapFind_buildIdIndex lines id off).mp h
    exact ⟨this.1, this.2.1⟩
  · intro id
    constructor
    · rintro ⟨i, hi, hP⟩
      set P : Nat → Prop := fun j => leadingIdOf (lines.getD j "") = some id with hPdef
      have hdec : DecidablePred P := fun j => by
        rw [hPdef]; infer_instance
      have hlen : 0 < lines.length := by omega
      set g := Nat.findGreatest P (lines.length - 1) with hg
      have hPg : P g := Nat.findGreatest_spec (m := i) (by omega) hP
      have hgle : g ≤ lines.length - 1 := Nat.findGreatest_le _
      have hmax : ∀ k, g < k → k < lines.length → ¬ P k := by
        intro k hk1 hk2
        exact Nat.findGreatest_is_greatest hk1 (by omega)
      have : mapFind id (buildIdIndex lines) = some g :=
        (mapFind_buildIdIndex lines id g).mpr ⟨by omega, hPg, hmax⟩
      simp [this]
    · intro h
      obtain ⟨off, hoff⟩ := Option.isSome_iff_exists.mp h
      have := (mapFind_buildIdIndex lines id off).mp hoff
      exact ⟨off, this.1, this.2.1⟩
  · intro h
    exact buildIdIndexAux_of_all_none h 0 []

/-- Witness for C1 at concrete inputs: a two-line file with leading ids
indexes both ids at their offsets, and a file with no leading-digit line
yields the empty index. -/
theorem buildIdIndex_exact_witness :
    buildIdIndex ["abc", "x7y", ""] = [] ∧
      (12 ∈ mapKeys (buildIdIndex ["12\tAttack", "40\tHitpoints"])) := by
  constructor
  · exact (buildIdIndex_exact ["abc", "x7y", ""]).2.2 (by decide)
  · decide

/-- **C10.** When two or more lines of a file begin with the same leading
integer ID, the ID index maps that ID to the 0-based offset of the last
such line in file order, and `getEntryById` of that ID returns that last
line (1-based line number `off + 1`, raw text the line itself). -/
theorem buildIdIndex_last_wins (lines : List String) (id off : Nat)
    (hoff : off < lines.length)
    (hP : leadingIdOf (lines.getD off "") = some id)
    (hlast : ∀ k, off < k → k < lines.length →
        leadingIdOf (lines.getD k "") ≠ some id) :
    mapFind id (buildIdIndex lines) = some off ∧
    getEntryById lines id =
      some { id := id, name := entryNameOf (lines.getD off ""),
             lineNumber := off + 1, raw := lines.getD off "" } := by
  have hfind : mapFind id (buildIdIndex lines) = some off :=
    (mapFind_buildIdIndex lines id off).mpr ⟨hoff, hP, hlast⟩
  refine ⟨hfind, ?_⟩
  unfold getEntryById
  rw [hfind]
  have hget : lines[off]? = some (lines.getD off "") := by
    rw [List.getD_eq_getElem _ _ hoff]
    exact List.getElem?_eq_getElem hoff
  dsimp only
  rw [hget]
  dsimp only
  rw [if_neg (leadingIdOf_ne_empty hP)]

/-- Witness for C10: in a file where lines 0 and 2 both lead with id 5, the
index maps 5 to offset 2 and `getEntryById` returns the line at offset 2. -/
theorem buildIdIndex_last_wins_witness :
    mapFind 5 (buildIdIndex ["5\told", "7\tmid", "5\tnew"]) = some 2 ∧
    getEntryById ["5\told", "7\tmid", "5\tnew"] 5 =
      some { id := 5, name := "new", lineNumber := 3, raw := "5\tnew" } := by
  have h := buildIdIndex_last_wins ["5\told", "7\tmid", "5\tnew"] 5 2
    (by decide) (by decide) (fun k h1 h2 => absurd h1 (by simp at h2; omega))
  refine ⟨h.1, ?_⟩
  rw [h.2]
  decide

/-! ## The wiki response cache (src/index.ts lines 121–164, src/unnamed/part_000
lines 190–236)

`wikiCache : Map<string, {data, timestamp}>` with `WIKI_CACHE_MAX_SIZE = 500`.
`setWikiCache` evicts the first (earliest-inserted) key when the cache is at
or above the maximum size — but only if that key is truthy, i.e. non-empty —
then inserts the new entry. -/

/-- A wiki cache entry: `{ data, timestamp }`. -/
structure WikiEntry (α : Type) where
  data : α
  timestamp : Nat
  deriving Repr, DecidableEq

/-- `WIKI_CACHE_MAX_SIZE = 500`. -/
def WIKI_CACHE_MAX_SIZE : Nat := 500

/-- Insertion sort on key/value pairs by key (the observable effect of
`Object.keys(params).sort()` on a duplicate-free parameter object). -/
def insertByKey (p : String × String) : List (String × String) → List (String × String)
  | [] => [p]
  | q :: rest => if p.1 ≤ q.1 then p :: q :: rest else q :: insertByKey p rest

/-- Sort parameters by name. -/
def sortParams : List (String × String) → List (String × String)
  | [] => []
  | p :: rest => insertByKey p (sortParams rest)

/-- `getWikiCacheKey`: parameter names sorted, joined as `name=value` pairs
with `&`, prefixed by `action:`. -/
def getWikiCacheKey (action : String) (params : List (String × String)) : String :=
  action ++ ":" ++
    String.intercalate "&" ((sortParams params).map fun p => p.1 ++ "=" ++ p.2)

/-- `setWikiCache`: if at or above max size, delete the first inserted key
(when truthy, i.e. non-empty), then `Map.set` the new entry. -/
def setWikiCache {α : Type} (key : String) (data : α) (now : Nat)
    (cache : List (String × WikiEntry α)) : List (String × WikiEntry α) :=
  let cache' :=
    if WIKI_CACHE_MAX_SIZE ≤ cache.length then
      match cache.head? with
      | some (oldestKey, _) =>
        if oldestKey ≠ "" then mapDelete oldestKey cache else cache
      | none => cache
    else cache
  mapSet key { data := data, timestamp := now } cache'

theorem getWikiCacheKey_ne_empty (action : String)
    (params : List (String × String)) : getWikiCacheKey action params ≠ "" := by
  intro h
  have hlen : (getWikiCacheKey action params).length = 0 := by rw [h]; rfl
  unfold getWikiCacheKey at hlen
  simp only [String.length_append] at hlen
  exact absurd hlen (by simp [show (":" : String).length = 1 from rfl])

theorem setWikiCache_full_step {α : Type} {k0 : String} {v0 : WikiEntry α}
    {rest : List (String × WikiEntry α)} (key : String) (data : α) (now : Nat)
    (hlen : ((k0, v0) :: rest).length = WIKI_CACHE_MAX_SIZE) (hk0e : k0 ≠ "") :
    setWikiCache key data now ((k0, v0) :: rest) =
      mapSet key { data := data, timestamp := now } rest := by
  unfold setWikiCache
  rw [hlen]
  simp only [le_refl, if_pos, List.head?_cons, ne_eq, hk0e, not_false_iff,
    if_true, mapDelete, if_pos rfl]

/-- **C2.** Every key built by `getWikiCacheKey` is non-empty (so the truthy
eviction guard always fires); when the wiki cache holds exactly
`WIKI_CACHE_MAX_SIZE = 500` entries (keys as built, non-empty and distinct),
one more `setWikiCache` of a new key leaves exactly 500 entries and the
earliest-inserted key is gone; and `setWikiCache` never grows a cache of at
most 500 entries beyond 500. -/
theorem setWikiCache_bounded {α : Type} :
    (∀ action params, getWikiCacheKey action params ≠ "") ∧
    (∀ (cache : List (String × WikiEntry α)) key data now,
      cache.length = WIKI_CACHE_MAX_SIZE →
      (∀ k ∈ mapKeys cache, k ≠ "") →
      (mapKeys cache).Nodup →
      key ∉ mapKeys cache →
      (setWikiCache key data now cache).length = WIKI_CACHE_MAX_SIZE ∧
        ∀ k0, (mapKeys cache).head? = some k0 →
          k0 ∉ mapKeys (setWikiCache key data now cache)) ∧
    (∀ (cache : List (String × WikiEntry α)) key data now,
      (∀ k ∈ mapKeys cache, k ≠ "") →
      cache.length ≤ WIKI_CACHE_MAX_SIZE →
      (setWikiCache key data now cache).length ≤ WIKI_CACHE_MAX_SIZE) := by
  refine ⟨getWikiCacheKey_ne_empty, ?_, ?_⟩
  · intro cache key data now hlen hne hnodup hnew
    match cache, hlen with
    | (k0, v0) :: rest, hlen =>
      have hview : mapKeys ((k0, v0) :: rest) = k0 :: mapKeys rest := rfl
      have hnodup2 : (k0 :: mapKeys rest).Nodup := by rwa [hview] at hnodup
      have hk0 : k0 ∉ mapKeys rest := (List.nodup_cons.mp hnodup2).1
      have hkey : key ∉ mapKeys rest := fun h =>
        hnew (by rw [hview]; exact List.mem_cons_of_mem _ h)
      have hkeyne : key ≠ k0 := fun h =>
        hnew (by rw [hview, h]; exact List.mem_cons_self _ _)
      have hk0e : k0 ≠ "" := hne k0 (by rw [hview]; exact List.mem_cons_self _ _)
      have hstep := setWikiCache_full_step (α := α) key data now hlen hk0e
      refine ⟨?_, ?_⟩
      · rw [hstep, length_mapSet_of_not_mem _ hkey]
        simp only [List.length_cons] at hlen
        omega
      · intro k hk
        rw [hview] at hk
        simp only [List.head?_cons, Option.some.injEq] at hk
        subst hk
        rw [hstep]
        intro hmem
        rcases (mem_mapKeys_mapSet _ _).mp hmem with h | h
        · exact hk0 h
        · exact hkeyne h.symm
  · intro cache key data now hkeys hlen
    rcases Nat.lt_or_ge cache.length WIKI_CACHE_MAX_SIZE with h | h
    · have hskip : setWikiCache key data now cache =
          mapSet key { data := data, timestamp := now } cache := by
        unfold setWikiCache
        simp [Nat.not_le.mpr h]
      rw [hskip]
      calc (mapSet key { data := data, timestamp := now } cache).length
          ≤ cache.length + 1 := length_mapSet_le _ _ _
        _ ≤ WIKI_CACHE_MAX_SIZE := by omega
    · have hlen' : cache.length = WIKI_CACHE_MAX_SIZE := by omega
      match cache, hlen' with
      | (k0, v0) :: rest, hlen' =>
        have hk0 : k0 ≠ "" := hkeys k0 (List.mem_cons_self _ _)
        rw [setWikiCache_full_step (α := α) key data now hlen' hk0]
        calc (mapSet key { data := data, timestamp := now } rest).length
            ≤ rest.length + 1 := length_mapSet_le _ _ _
          _ ≤ WIKI_CACHE_MAX_SIZE := by
              simp only [List.length_cons] at hlen'
              omega

/-- A full 500-entry wiki cache used as the C2 witness input: the keys are
`"a"`, `"aa"`, `"aaa"`, …, all non-empty and pairwise distinct. -/
def wikiCacheFull : List (String × WikiEntry Nat) :=
  (List.range 500).map
    (fun i => (String.mk (List.replicate (i + 1) 'a'),
      ({ data := 0, timestamp := 0 } : WikiEntry Nat)))

theorem wikiCacheFull_keys : mapKeys wikiCacheFull =
    (List.range 500).map (fun i => String.mk (List.replicate (i + 1) 'a')) := by
  unfold wikiCacheFull mapKeys
  rw [List.map_map]
  rfl

/-- Witness for C2 at concrete inputs: on the full 500-entry cache, one more
put of the fresh key `"b"` keeps the size at 500 and evicts the earliest
key. -/
theorem setWikiCache_bounded_witness :
    (getWikiCacheKey "parse" [("page", "Zulrah")] ≠ "") ∧
    ((setWikiCache (String.mk ['b']) 0 0 wikiCacheFull).length = 500 ∧
      ∀ k0, (mapKeys wikiCacheFull).head? = some k0 →
        k0 ∉ mapKeys (setWikiCache (String.mk ['b']) 0 0 wikiCacheFull)) := by
  have hinj : Function.Injective
      (fun i : Nat => String.mk (List.replicate (i + 1) 'a')) := by
    intro i j h
    have h2 : List.replicate (i + 1) 'a' = List.replicate (j + 1) 'a' :=
      congrArg String.data h
    have h3 := congrArg List.length h2
    simp only [List.length_replicate] at h3
    omega
  have hnodup : (mapKeys wikiCacheFull).Nodup := by
    rw [wikiCacheFull_keys]
    exact (List.nodup_range 500).map hinj
  have hb : String.mk ['b'] ∉ mapKeys wikiCacheFull := by
    rw [wikiCacheFull_keys]
    intro hmem
    obtain ⟨i, _, hi⟩ := List.mem_map.mp hmem
    have h2 : List.replicate (i + 1) 'a' = ['b'] := congrArg String.data hi
    rw [List.replicate_succ] at h2
    injection h2 with hhd _
    exact absurd hhd (by decide)
  have hne : ∀ k ∈ mapKeys wikiCacheFull, k ≠ "" := by
    rw [wikiCacheFull_keys]
    intro k hk
    obtain ⟨i, _, hi⟩ := List.mem_map.mp hk
    intro hcon
    have h3 : List.replicate (i + 1) 'a' = ("" : String).data :=
      congrArg String.data (hi.trans hcon)
    rw [show ("" : String).data = [] from rfl] at h3
    simp [List.replicate_succ] at h3
  have h := (setWikiCache_bounded (α := Nat)).2.1 wikiCacheFull
    (String.mk ['b']) 0 0
    (by unfold wikiCacheFull; simp [WIKI_CACHE_MAX_SIZE]) hne hnodup hb
  exact ⟨(setWikiCache_bounded (α := Nat)).1 "parse" [("page", "Zulrah")], h⟩

/-! ## Request deduplication (src/unnamed/part_000 lines 239–253)

`pendingRequests : Map<string, Promise<any>>`.  `fetchWithDedup(key, fetcher)`
returns the already-pending promise when one exists; otherwise it invokes
`fetcher`, attaches a `finally` that deletes the key, stores the promise and
returns it.  Scheduling is single-threaded and cooperative (section 5 of the
spec), so each call body and each completion handler runs atomically; we model
them as atomic steps on an explicit state.  Promises are named by the id the
deduplicator allocated for them, and `invocations` counts how many times a
fetcher was actually invoked. -/

/-- The deduplicator state: the pending-request map, a supply of fresh
promise ids, and the number of fetcher invocations so far. -/
structure DedupState where
  pending : List (String × Nat)
  nextId : Nat
  invocations : Nat
  deriving Repr, DecidableEq

/-- The result of one `fetchWithDedup` call: the promise handed back to the
caller, whether the fetcher was invoked by this call, and the new state. -/
structure DedupResult where
  promise : Nat
  invoked : Bool
  state : DedupState
  deriving Repr, DecidableEq

/-- One atomic `fetchWithDedup(key, fetcher)` call. -/
def fetchWithDedup (key : String) (s : DedupState) : DedupResult :=
  match mapFind key s.pending with
  | some existing => { promise := existing, invoked := false, state := s }
  | none =>
    { promise := s.nextId, invoked := true,
      state := { pending := mapSet key s.nextId s.pending,
                 nextId := s.nextId + 1,
                 invocations := s.invocations + 1 } }

/-- The `finally` handler of the promise stored for `key`: on completion —
success or failure alike — the key is deleted from the pending map. -/
def dedupComplete (key : String) (s : DedupState) : DedupState :=
  { s with pending := mapDelete key s.pending }

theorem mapFind_mapDelete_mapSet_self {α : Type} (k : String) (v : α)
    {m : List (String × α)} (h : mapFind k m = none) :
    mapFind k (mapDelete k (mapSet k v m)) = none := by
  induction m with
  | nil => simp [mapSet, mapDelete, mapFind]
  | cons hd tl ih =>
    obtain ⟨k', v'⟩ := hd
    by_cases hk : k' = k
    · rw [show mapFind k ((k', v') :: tl) = if k' = k then some v' else mapFind k tl
        from rfl, if_pos hk] at h
      exact absurd h (by simp)
    · have h' : mapFind k tl = none := by
        rw [show mapFind k ((k', v') :: tl) = if k' = k then some v' else mapFind k tl
          from rfl, if_neg hk] at h
        exact h
      rw [show mapSet k v ((k', v') :: tl) = (k', v') :: mapSet k v tl from by
        simp [mapSet, hk]]
      rw [show mapDelete k ((k', v') :: mapSet k v tl) =
          (k', v') :: mapDelete k (mapSet k v tl) from by
        simp [mapDelete, hk]]
      rw [show mapFind k ((k', v') :: mapDelete k (mapSet k v tl)) =
          if k' = k then some v' else mapFind k (mapDelete k (mapSet k v tl))
        from rfl, if_neg hk]
      exact ih h'

/-- **C3.** For every key not currently pending: a first `fetchWithDedup`
call invokes the fetcher; a second call while the first is outstanding does
not invoke it again and receives the very same promise (one invocation in
total); after the outstanding operation completes — success or failure alike
trigger the same `finally` — the key is no longer pending, so a third call
invokes the fetcher afresh (two invocations in total). -/
theorem fetchWithDedup_coalesces (s : DedupState) (key : String)
    (hfresh : mapFind key s.pending = none) :
    (fetchWithDedup key s).invoked = true ∧
    (fetchWithDedup key (fetchWithDedup key s).state).invoked = false ∧
    (fetchWithDedup key (fetchWithDedup key s).state).promise =
      (fetchWithDedup key s).promise ∧
    (fetchWithDedup key (fetchWithDedup key s).state).state.invocations =
      s.invocations + 1 ∧
    mapFind key (dedupComplete key
      (fetchWithDedup key (fetchWithDedup key s).state).state).pending = none ∧
    (fetchWithDedup key (dedupComplete key
      (fetchWithDedup key (fetchWithDedup key s).state).state)).invoked = true ∧
    (fetchWithDedup key (dedupComplete key
      (fetchWithDedup key (fetchWithDedup key s).state).state)).state.invocations =
      s.invocations + 2 := by
  have e1 : fetchWithDedup key s =
      ⟨s.nextId, true, ⟨mapSet key s.nextId s.pending, s.nextId + 1,
        s.invocations + 1⟩⟩ := by
    unfold fetchWithDedup
    rw [hfresh]
  rw [e1]
  have e2 : fetchWithDedup key
      (⟨mapSet key s.nextId s.pending, s.nextId + 1, s.invocations + 1⟩ :
        DedupState) =
      ⟨s.nextId, false, ⟨mapSet key s.nextId s.pending, s.nextId + 1,
        s.invocations + 1⟩⟩ := by
    unfold fetchWithDedup
    dsimp only
    rw [mapFind_mapSet_self]
  rw [show (⟨s.nextId, true, ⟨mapSet key s.nextId s.pending, s.nextId + 1,
      s.invocations + 1⟩⟩ : DedupResult).state =
      ⟨mapSet key s.nextId s.pending, s.nextId + 1, s.invocations + 1⟩ from rfl]
  rw [e2]
  have hnone := mapFind_mapDelete_mapSet_self key s.nextId hfresh
  have e3 : dedupComplete key
      (⟨mapSet key s.nextId s.pending, s.nextId + 1, s.invocations + 1⟩ :
        DedupState) =
      ⟨mapDelete key (mapSet key s.nextId s.pending), s.nextId + 1,
        s.invocations + 1⟩ := rfl
  have e4 : fetchWithDedup key
      (⟨mapDelete key (mapSet key s.nextId s.pending), s.nextId + 1,
        s.invocations + 1⟩ : DedupState) =
      ⟨s.nextId + 1, true,
        ⟨mapSet key (s.nextId + 1) (mapDelete key (mapSet key s.nextId s.pending)),
          s.nextId + 2, s.invocations + 2⟩⟩ := by
    unfold fetchWithDedup
    dsimp only
    rw [hnone]
  simp only [e3, e4]
  exact ⟨trivial, trivial, trivial, trivial, hnone, trivial, trivial⟩

/-- Witness for C3 at a concrete input: from the empty deduplicator state,
two overlapping calls for `"price:4151"` share one promise and one
invocation, and a call after completion invokes again. -/
theorem fetchWithDedup_coalesces_witness :
    (fetchWithDedup "price:4151" ⟨[], 0, 0⟩).invoked = true ∧
    (fetchWithDedup "price:4151" (fetchWithDedup "price:4151" ⟨[], 0, 0⟩).state).invoked
      = false := by
  have h := fetchWithDedup_coalesces ⟨[], 0, 0⟩ "price:4151" (by rfl)
  exact ⟨h.1, h.2.1⟩

/-! ## The structured dataset cache (src/unnamed/part_000 lines 898–1013)

`fetchOsrsBoxData` receives the fetched monster collection
(`Object.values(rawData)`), validates it, and only then writes the disk
snapshot and rebuilds the in-memory indexes.  The HTTP fetch is the external
collaborator, so the parsed record list is a parameter; the disk snapshot and
the in-memory cache are explicit state. -/

/-- A drop record from osrsreboxed-db. -/
structure OsrsBoxDrop where
  id : Nat
  name : String
  members : Bool
  quantity : String
  noted : Bool
  rarity : ℚ
  rolls : Nat
  deriving Repr, DecidableEq

/-- A monster record from osrsreboxed-db (`drops` is absent on some raw
records, hence optional). -/
structure OsrsBoxMonster where
  id : Nat
  name : String
  combat_level : Nat
  hitpoints : Nat
  wiki_url : String
  drops : Option (List OsrsBoxDrop)
  deriving Repr, DecidableEq

/-- An inverted-index entry: one source monster for an item. -/
structure ItemSourceEntry where
  monsterId : Nat
  monsterName : String
  combatLevel : Nat
  rarity : ℚ
  quantity : String
  noted : Bool
  deriving Repr, DecidableEq

/-- The in-memory cache with its three derived indexes. -/
structure OsrsBoxCache where
  monsters : List (Nat × OsrsBoxMonster)
  monsterNameIndex : List (String × List Nat)
  itemDropIndex : List (Nat × List ItemSourceEntry)
  timestamp : Nat
  deriving Repr, DecidableEq

/-- `name.toLowerCase()` (the data is ASCII). -/
def toLowerStr (s : String) : String := String.mk (s.data.map Char.toLower)

/-- `buildOsrsBoxIndexes` (src/unnamed/part_000 lines 910–948): one pass over
the records populating the id map, the lowercased-name index and the
item→sources inverted index. -/
def buildOsrsBoxIndexes (monsters : List OsrsBoxMonster) (now : Nat) :
    OsrsBoxCache :=
  let step := fun (acc : List (Nat × OsrsBoxMonster) × List (String × List Nat) ×
      List (Nat × List ItemSourceEntry)) (monster : OsrsBoxMonster) =>
    let monsterMap := mapSet monster.id monster acc.1
    let nameLower := toLowerStr monster.name
    let existing := (mapFind nameLower acc.2.1).getD []
    let nameIndex := mapSet nameLower (existing ++ [monster.id]) acc.2.1
    let itemDropIndex :=
      match monster.drops with
      | none => acc.2.2
      | some drops =>
        drops.foldl (fun idx drop =>
          let sources := (mapFind drop.id idx).getD []
          mapSet drop.id (sources ++
            [{ monsterId := monster.id, monsterName := monster.name,
               combatLevel := monster.combat_level, rarity := drop.rarity,
               quantity := drop.quantity, noted := drop.noted }]) idx) acc.2.2
    (monsterMap, nameIndex, itemDropIndex)
  let built := monsters.foldl step ([], [], [])
  { monsters := built.1, monsterNameIndex := built.2.1,
    itemDropIndex := built.2.2, timestamp := now }

/-- The mutable state touched by a dataset refresh: the on-disk snapshot and
the in-memory cache (with its indexes). -/
structure BoxState where
  disk : Option (List OsrsBoxMonster)
  mem : Option OsrsBoxCache
  deriving Repr, DecidableEq

/-- The statistics record resolved by `fetchOsrsBoxData` on success. -/
structure FetchResult where
  success : Bool
  monsterCount : Nat
  totalDrops : Nat
  uniqueItems : Nat
  dryRun : Bool
  filePath : Option String
  deriving Repr, DecidableEq

/-- `Set`-insertion: add `x` if not already present. -/
def dedupInsert (l : List Nat) (x : Nat) : List Nat :=
  if x ∈ l then l else l ++ [x]

/-- `fetchOsrsBoxData` (src/unnamed/part_000 lines 955–1013), with the
fetched record list as input.  The two validation failures throw before any
state is touched; on success with `saveToDisk`, the raw payload is persisted
and the in-memory indexes rebuilt. -/
def fetchOsrsBoxData (monsters : List OsrsBoxMonster) (saveToDisk : Bool)
    (now : Nat) (st : BoxState) : Except String FetchResult × BoxState :=
  if monsters.length = 0 then
    (Except.error "No monsters found in osrsreboxed-db data", st)
  else if monsters.length < 1000 then
    (Except.error ("Only " ++ toString monsters.length ++
      " monsters found, expected 2800+. Data structure may have changed."), st)
  else
    let totalDrops := monsters.foldl (fun acc m =>
      match m.drops with
      | none => acc
      | some drops => acc + drops.length) 0
    let uniqueItemIds := monsters.foldl (fun acc m =>
      match m.drops with
      | none => acc
      | some drops => drops.foldl (fun acc' d => dedupInsert acc' d.id) acc) []
    if saveToDisk then
      -- fields: success, monsterCount, totalDrops, uniqueItems, dryRun, filePath
      (Except.ok (⟨true, monsters.length, totalDrops, uniqueItemIds.length,
          false, some "data/osrsbox-monsters.json"⟩ : FetchResult),
        (⟨some monsters, some (buildOsrsBoxIndexes monsters now)⟩ : BoxState))
    else
      (Except.ok (⟨true, monsters.length, totalDrops, uniqueItemIds.length,
          true, none⟩ : FetchResult), st)

/-- **C4.** Every fetched dataset that parses to fewer than 1000 records
makes the refresh reject with an error, and the on-disk snapshot and the
in-memory cache with its indexes are left exactly as they were. -/
theorem fetchOsrsBoxData_rejects_small (monsters : List OsrsBoxMonster)
    (saveToDisk : Bool) (now : Nat) (st : BoxState)
    (hsmall : monsters.length < 1000) :
    (∃ e, (fetchOsrsBoxData monsters saveToDisk now st).1 = Except.error e) ∧
    (fetchOsrsBoxData monsters saveToDisk now st).2 = st := by
  by_cases h0 : monsters.length = 0
  · have e : fetchOsrsBoxData monsters saveToDisk now st =
        (Except.error "No monsters found in osrsreboxed-db data", st) := by
      unfold fetchOsrsBoxData
      rw [if_pos h0]
    rw [e]
    exact ⟨⟨_, rfl⟩, rfl⟩
  · have e : fetchOsrsBoxData monsters saveToDisk now st =
        (Except.error ("Only " ++ toString monsters.length ++
          " monsters found, expected 2800+. Data structure may have changed."),
          st) := by
      unfold fetchOsrsBoxData
      rw [if_neg h0, if_pos hsmall]
    rw [e]
    exact ⟨⟨_, rfl⟩, rfl⟩

/-- Witness for C4 at a concrete input: a 1-record dataset is rejected and a
non-trivial pre-existing state survives untouched. -/
theorem fetchOsrsBoxData_rejects_small_witness :
    (∃ e, (fetchOsrsBoxData
        [{ id := 1, name := "Cow", combat_level := 2, hitpoints := 8,
           wiki_url := "", drops := none }] true 0
        ⟨some [], some (buildOsrsBoxIndexes [] 0)⟩).1 = Except.error e) ∧
    (fetchOsrsBoxData
        [{ id := 1, name := "Cow", combat_level := 2, hitpoints := 8,
           wiki_url := "", drops := none }] true 0
        ⟨some [], some (buildOsrsBoxIndexes [] 0)⟩).2 =
      ⟨some [], some (buildOsrsBoxIndexes [] 0)⟩ :=
  fetchOsrsBoxData_rejects_small _ true 0 _ (by decide)

/-! ## `searchFile` (src/index.ts lines 529–545, src/unnamed/part_000 lines
1255–1270)

The search term first has every space replaced by an underscore
(`searchTerm.replaceAll(" ", "_")`), is lowercased, and each line matches by
case-insensitive substring containment.  (Pagination and result formatting
below the match loop do not alter which lines match.) -/

/-- `searchTerm.replaceAll(" ", "_")`. -/
def underscoreSpaces (s : String) : String :=
  String.mk (s.data.map (fun c => if c = ' ' then '_' else c))

/-- List-prefix test used by substring containment. -/
def isPrefOf : List Char → List Char → Bool
  | [], _ => true
  | _ :: _, [] => false
  | a :: as, b :: bs => a = b && isPrefOf as bs

/-- `hay.includes(needle)` on character lists (JavaScript semantics: the
empty needle is contained in everything). -/
def containsSub : List Char → List Char → Bool
  | [], needle => isPrefOf needle []
  | c :: rest, needle => isPrefOf needle (c :: rest) || containsSub rest needle

/-- The match-collection loop of `searchFile`: walk the lines with 0-based
index `i`, pushing `(line, i + 1)` (1-based line number) when the lowercased
line contains the prepared term. -/
def searchGo (term : List Char) : List String → Nat → List (String × Nat)
  | [], _ => []
  | line :: rest, i =>
    if containsSub (toLowerStr line).data term then
      (line, i + 1) :: searchGo term rest (i + 1)
    else searchGo term rest (i + 1)

/-- `searchFile`'s matching phase, as a pure function of the cached file
lines and the raw search term. -/
def searchFileMatches (lines : List String) (searchTerm : String) :
    List (String × Nat) :=
  searchGo (toLowerStr (underscoreSpaces searchTerm)).data lines 0

theorem searchGo_cons (term : List Char) (line : String) (rest : List String)
    (i : Nat) :
    searchGo term (line :: rest) i =
      if containsSub (toLowerStr line).data term then
        (line, i + 1) :: searchGo term rest (i + 1)
      else searchGo term rest (i + 1) := rfl

theorem mem_searchGo (term : List Char) (lines : List String) (i : Nat)
    (line : String) (n : Nat) :
    (line, n) ∈ searchGo term lines i ↔
      ∃ j, j < lines.length ∧ lines.getD j "" = line ∧ n = i + j + 1 ∧
        containsSub (toLowerStr line).data term = true := by
  induction lines generalizing i with
  | nil => simp [searchGo]
  | cons hd tl ih =>
    by_cases h : containsSub (toLowerStr hd).data term
    · rw [searchGo_cons, if_pos h]
      simp only [List.mem_cons]
      constructor
      · rintro (heq | hmem)
        · obtain ⟨h1, h2⟩ := Prod.mk.injEq .. ▸ heq
          exact ⟨0, by simp, by simp [h1.symm], by omega, by rw [h1]; exact h⟩
        · obtain ⟨j, hj, hline, hn, hc⟩ := (ih (i + 1)).mp hmem
          exact ⟨j + 1, by simpa using Nat.succ_lt_succ hj, by simpa using hline,
            by omega, hc⟩
      · rintro ⟨j, hj, hline, hn, hc⟩
        match j with
        | 0 =>
          left
          have : hd = line := by simpa using hline
          rw [← this]
          have : n = i + 1 := by omega
          rw [this]
        | j + 1 =>
          right
          exact (ih (i + 1)).mpr ⟨j, by simpa using hj, by simpa using hline,
            by omega, hc⟩
    · rw [searchGo_cons, if_neg h]
      rw [ih]
      constructor
      · rintro ⟨j, hj, hline, hn, hc⟩
        exact ⟨j + 1, by simpa using Nat.succ_lt_succ hj, by simpa using hline,
          by omega, hc⟩
      · rintro ⟨j, hj, hline, hn, hc⟩
        match j with
        | 0 =>
          exfalso
          have : hd = line := by simpa using hline
          rw [this] at h
          exact h hc
        | j + 1 =>
          exact ⟨j, by simpa using hj, by simpa using hline, by omega, hc⟩

/-- **C9.** `searchFile` first replaces each space of the query by an
underscore and matches case-insensitively: a line is reported (with its
1-based number) exactly when its lowercased text contains the lowercased
underscore form of the query; hence replacing the query by its underscore
form does not change the result, and a line that lacks the underscore form
is never reported — even if it contains the original spaced query. -/
theorem searchFile_spaces_to_underscores (lines : List String) (term : String) :
    (∀ line n, (line, n) ∈ searchFileMatches lines term ↔
      ∃ j, j < lines.length ∧ lines.getD j "" = line ∧ n = j + 1 ∧
        containsSub (toLowerStr line).data
          (toLowerStr (underscoreSpaces term)).data = true) ∧
    searchFileMatches lines term = searchFileMatches lines (underscoreSpaces term) ∧
    (∀ line n, containsSub (toLowerStr line).data
        (toLowerStr (underscoreSpaces term)).data = false →
      (line, n) ∉ searchFileMatches lines term) := by
  have hidem : underscoreSpaces (underscoreSpaces term) = underscoreSpaces term := by
    unfold underscoreSpaces
    rw [List.map_map]
    congr 1
    apply List.map_congr_left
    intro c _
    by_cases hc : c = ' ' <;> simp [hc, Function.comp]
  refine ⟨?_, ?_, ?_⟩
  · intro line n
    rw [searchFileMatches, mem_searchGo]
    constructor
    · rintro ⟨j, hj, hline, hn, hc⟩
      exact ⟨j, hj, hline, by omega, hc⟩
    · rintro ⟨j, hj, hline, hn, hc⟩
      exact ⟨j, hj, hline, by omega, hc⟩
  · unfold searchFileMatches
    rw [hidem]
  · intro line n hfalse hmem
    obtain ⟨_, _, _, _, hc⟩ := (mem_searchGo _ _ _ _ _).mp hmem
    rw [hfalse] at hc
    cases hc

/-- Witness for C9 at a concrete input: searching `"Dragon Sword"` matches
the line containing `Dragon_Sword` (case-insensitively) and not the line
containing the spaced form. -/
theorem searchFile_spaces_to_underscores_witness :
    ("123\tdragon_sword", 1) ∈
      searchFileMatches ["123\tdragon_sword", "124\tDragon Sword"] "Dragon Sword" ∧
    ("124\tDragon Sword", 2) ∉
      searchFileMatches ["123\tdragon_sword", "124\tDragon Sword"] "Dragon Sword" := by
  constructor
  · exact ((searchFile_spaces_to_underscores
      ["123\tdragon_sword", "124\tDragon Sword"] "Dragon Sword").1 _ _).mpr
      ⟨0, by decide, by decide, by decide, by decide⟩
  · exact (searchFile_spaces_to_underscores
      ["123\tdragon_sword", "124\tDragon Sword"] "Dragon Sword").2.2
      "124\tDragon Sword" 2 (by decide)

/-! ## Rarity conversions (src/unnamed/part_000 lines 290–331 and 898–905)

`rarityToPercent` recognises keyword rarities, then a fraction `N/D`
optionally preceded by a multiplier `K x` / `K ×`, and formats
`K·N/D·100` with 2/3/4 decimal places by size bands (`toFixed`).  The
JavaScript floating-point value is modelled exactly by the fraction
`pNum / pDen` with `pNum = K·N·100`, `pDen = D` (every quantity the code
computes here is such an exact ratio), and `toFixed`'s round-half-up on a
non-negative value is integer arithmetic on that fraction.
`rarityToFraction` renders a decimal probability as `1/round(1/p)` with
`toLocaleString` thousands separators (en-US grouping). -/

/-- JavaScript whitespace (`\s`, and what `trim` strips) for the character
set this data uses. -/
def isJsWs (c : Char) : Bool :=
  c = ' ' || c = '\t' || c = '\n' || c = '\r' ||
    c.toNat = 11 || c.toNat = 12 || c.toNat = 0xA0 || c.toNat = 0xFEFF

/-- `s.trim()`. -/
def trimStr (s : String) : String :=
  String.mk (((s.data.dropWhile isJsWs).reverse.dropWhile isJsWs).reverse)

/-- The decimal digit character of `n < 10`. -/
def digitChar (n : Nat) : Char := Char.ofNat (48 + n)

/-- Decimal digit list of a natural number (`fuel`-driven so that it
evaluates inside the kernel; `natDigits` supplies enough fuel). -/
def natDigitsAux : Nat → Nat → List Char
  | _, 0 => []
  | n, fuel + 1 =>
    if n < 10 then [digitChar n]
    else natDigitsAux (n / 10) fuel ++ [digitChar (n % 10)]

/-- Decimal digit list of a natural number, most significant first. -/
def natDigits (n : Nat) : List Char := natDigitsAux n (n + 1)

/-- `toFixed(d)` of the non-negative value `pNum / pDen` (JavaScript
round-half-up): the digits of `round(pNum/pDen · 10^d)` with a decimal
point inserted `d` places from the right, zero-padded to `0.00…`. -/
def toFixedFrac (d pNum pDen : Nat) : String :=
  let scaled := (2 * pNum * 10 ^ d + pDen) / (2 * pDen)
  let ds := natDigits scaled
  if ds.length ≤ d then
    String.mk ('0' :: '.' :: (List.replicate (d - ds.length) '0' ++ ds))
  else
    String.mk (ds.take (ds.length - d) ++ '.' :: ds.drop (ds.length - d))

/-- The size-banded percentage formatting of `rarityToPercent`
(`pNum / pDen` is the percentage value): `≥ 1%` two decimals, `≥ 0.01%`
three decimals, else four. -/
def formatPercentFrac (pNum pDen : Nat) : String :=
  if pDen ≤ pNum then toFixedFrac 2 pNum pDen ++ "%"
  else if pDen ≤ 100 * pNum then toFixedFrac 3 pNum pDen ++ "%"
  else toFixedFrac 4 pNum pDen ++ "%"

/-- The multiplier regex `^(\d+)\s*[x×]\s*` (case-insensitive): a leading
digit run, optional whitespace, then `x`/`X`/`×`; on a match the parsed run,
else multiplier 1. -/
def parseMultiplier (l : List Char) : Nat :=
  let run := l.takeWhile isAsciiDigit
  if run.isEmpty then 1
  else
    match (l.dropWhile isAsciiDigit).dropWhile isJsWs with
    | c :: _ => if c = 'x' || c = 'X' || c = '×' then parseNatDigits run else 1
    | [] => 1

/-- The first match of the fraction regex `(\d+)\s*\/\s*([\d,]+)`: scan left
to right; at a digit, the maximal run must be followed (after optional
whitespace) by `/` and then (after optional whitespace) by a non-empty run
of digits-or-commas; otherwise scanning resumes at the next character.
(Positions inside a failed run fail identically, so char-by-char scanning
realizes the regex engine's first match.) -/
def findFraction : List Char → Option (List Char × List Char)
  | [] => none
  | c :: rest =>
    if isAsciiDigit c then
      let after := rest.dropWhile isAsciiDigit
      match after.dropWhile isJsWs with
      | '/' :: tail =>
        let dc := (tail.dropWhile isJsWs).takeWhile
          (fun ch => isAsciiDigit ch || ch = ',')
        if dc.isEmpty then findFraction rest
        else some (c :: rest.takeWhile isAsciiDigit, dc)
      | _ => findFraction rest
    else findFraction rest

/-- The fraction part of `rarityToPercent`: the percentage value
`multiplier · numerator · 100 / denominator` as the exact pair
`(pNum, pDen)`; `none` when no fraction matches, the denominator digits are
absent (`parseInt` yields `NaN`), or the denominator is zero. -/
def rarityFractionParts (s : String) : Option (Nat × Nat) :=
  match findFraction s.data with
  | none => none
  | some (numRun, dcRun) =>
    let dcDigits := dcRun.filter (fun ch => ch ≠ ',')
    if dcDigits.isEmpty then none
    else
      let den := parseNatDigits dcDigits
      if 0 < den then
        some (parseMultiplier s.data * parseNatDigits numRun * 100, den)
      else none

/-- `rarityToPercent` (src/unnamed/part_000 lines 290–331): keyword
rarities first, then the multiplier/fraction computation with size-banded
formatting; unrecognized formats yield `none` (`undefined`). -/
def rarityToPercent (s : String) : Option String :=
  let cleaned := trimStr (toLowerStr s)
  if cleaned = "always" then some "100%"
  else if cleaned = "common" then some "~10-20%"
  else if cleaned = "uncommon" then some "~5-10%"
  else if cleaned = "rare" then some "~1-5%"
  else if cleaned = "very rare" then some "<1%"
  else
    match rarityFractionParts s with
    | some (pNum, pDen) => some (formatPercentFrac pNum pDen)
    | none => none

/-- `Math.round` (round half up) on an exact rational. -/
def jsRound (q : ℚ) : Int := Int.floor (q + 1/2)

/-- Group a reversed digit list into threes (fuel-driven for kernel
evaluation). -/
def chunk3Aux : List Char → Nat → List (List Char)
  | _, 0 => []
  | [], _ + 1 => []
  | c :: rest, fuel + 1 => (c :: rest).take 3 :: chunk3Aux (rest.drop 2) fuel

/-- `n.toLocaleString()` (en-US grouping): decimal digits with `,` every
three digits from the right. -/
def toLocaleStr (n : Nat) : String :=
  let ds := natDigits n
  String.mk (List.intercalate [','] ((chunk3Aux ds.reverse ds.length).reverse.map
    List.reverse))

/-- `rarityToFraction` (src/unnamed/part_000 lines 898–905): probabilities
`≥ 1` render `"Always"`, `≤ 0` render `"Never"`, otherwise
`1/round(1/p)` with thousands separators. -/
def rarityToFraction (rarity : ℚ) : String :=
  if 1 ≤ rarity then "Always"
  else if rarity ≤ 0 then "Never"
  else "1/" ++ toLocaleStr (jsRound (1 / rarity)).toNat

/-- The parsed `(numerator, denominator)` of a `"N/D"` rarity string.
Modelled from the spec: the string-to-decimal direction of the rarity
round-trip (`rarityToDecimal`) is not part of src/ — upstream data already
carries decimal rarities — so the spec's fraction reading `N/D` is modelled
here: a leading digit run, a `/`, and a digit run, with a positive
denominator. -/
def rarityToDecimalParts (s : String) : Option (Nat × Nat) :=
  let l := s.data
  let numRun := l.takeWhile isAsciiDigit
  if numRun.isEmpty then none
  else
    match l.dropWhile isAsciiDigit with
    | '/' :: rest =>
      let denRun := rest.takeWhile isAsciiDigit
      if denRun.isEmpty then none
      else
        let den := parseNatDigits denRun
        if 0 < den then some (parseNatDigits numRun, den) else none
    | _ => none

/-- Modelled from the spec: `rarityToDecimal`, the string-to-decimal rarity
conversion used in the spec's round-trip property (not present in src/),
reading `"N/D"` as the probability `N/D`. -/
def rarityToDecimal (s : String) : Option ℚ :=
  (rarityToDecimalParts s).map (fun p => (p.1 : ℚ) / p.2)

theorem digitChar_isDigit {n : Nat} (h : n < 10) :
    isAsciiDigit (digitChar n) = true := by
  interval_cases n <;> decide

theorem natDigitsAux_digits (fuel : Nat) :
    ∀ n c, c ∈ natDigitsAux n fuel → isAsciiDigit c = true := by
  induction fuel with
  | zero => intro n c h; simp [natDigitsAux] at h
  | succ fuel ih =>
    intro n c h
    unfold natDigitsAux at h
    by_cases hn : n < 10
    · rw [if_pos hn] at h
      simp only [List.mem_singleton] at h
      subst h
      exact digitChar_isDigit hn
    · rw [if_neg hn] at h
      rcases List.mem_append.mp h with h1 | h1
      · exact ih _ _ h1
      · simp only [List.mem_singleton] at h1
        subst h1
        exact digitChar_isDigit (Nat.mod_lt _ (by norm_num))

theorem natDigits_digits {n : Nat} {c : Char} (h : c ∈ natDigits n) :
    isAsciiDigit c = true := natDigitsAux_digits _ _ _ h

theorem isDigit_ne_dot {c : Char} (h : isAsciiDigit c = true) : c ≠ '.' := by
  intro hc
  subst hc
  exact absurd h (by decide)

/-- `toFixedFrac d` always renders with exactly `d` digits after the single
decimal point. -/
theorem toFixedFrac_shape (d pNum pDen : Nat) :
    ∃ a b : String, toFixedFrac d pNum pDen = a ++ "." ++ b ∧
      b.length = d ∧ '.' ∉ a.data ∧ '.' ∉ b.data := by
  unfold toFixedFrac
  set scaled := (2 * pNum * 10 ^ d + pDen) / (2 * pDen) with hs
  set ds := natDigits scaled with hds
  by_cases hlen : ds.length ≤ d
  · rw [if_pos hlen]
    refine ⟨String.mk ['0'], String.mk (List.replicate (d - ds.length) '0' ++ ds),
      rfl, ?_, by decide, ?_⟩
    · show (List.replicate (d - ds.length) '0' ++ ds).length = d
      rw [List.length_append, List.length_replicate]
      omega
    · intro hmem
      rcases List.mem_append.mp hmem with h1 | h1
      · exact absurd (List.eq_of_mem_replicate h1) (by decide)
      · exact isDigit_ne_dot (natDigits_digits h1) rfl
  · rw [if_neg hlen]
    refine ⟨String.mk (ds.take (ds.length - d)), String.mk (ds.drop (ds.length - d)),
      ?_, ?_, ?_, ?_⟩
    · have hassoc : ds.take (ds.length - d) ++ '.' :: ds.drop (ds.length - d) =
          (ds.take (ds.length - d) ++ ['.']) ++ ds.drop (ds.length - d) := by
        simp
      rw [hassoc]
      rfl
    · show (ds.drop (ds.length - d)).length = d
      rw [List.length_drop]
      omega
    · intro hmem
      exact isDigit_ne_dot (natDigits_digits (List.take_subset _ _ hmem)) rfl
    · intro hmem
      exact isDigit_ne_dot (natDigits_digits (List.drop_subset _ _ hmem)) rfl

/-- **C6.** `rarityToPercent "2 x 1/1,024"` is `"0.195%"`: the multiplier 2
and the fraction 1/1,024 give the percentage `2·1/1024·100 = 0.1953125`
exactly, and every percentage value at least 0.01 and below 1 is rendered by
the 3-decimal band with exactly three digits after the decimal point. -/
theorem rarityToPercent_multiplier_case :
    rarityToPercent "2 x 1/1,024" = some "0.195%" ∧
    rarityFractionParts "2 x 1/1,024" = some (2 * 1 * 100, 1024) ∧
    ((2 * 1 * 100 : ℚ) / 1024 = 0.1953125) ∧
    (∀ pNum pDen : Nat, 0 < pDen →
      (1 / 100 : ℚ) ≤ (pNum : ℚ) / pDen → (pNum : ℚ) / pDen < 1 →
      ∃ a b : String, formatPercentFrac pNum pDen = a ++ "." ++ b ++ "%" ∧
        b.length = 3 ∧ '.' ∉ a.data ∧ '.' ∉ b.data) := by
  refine ⟨by decide, by decide, by norm_num, ?_⟩
  intro pNum pDen hpos h1 h2
  have hden : (0 : ℚ) < pDen := by exact_mod_cast hpos
  have hlt : pNum < pDen := by
    have := (div_lt_one hden).mp h2
    exact_mod_cast this
  have hge : pDen ≤ 100 * pNum := by
    rw [div_le_div_iff₀ (by norm_num) hden] at h1
    have h1' : (pDen : ℚ) ≤ 100 * pNum := by linarith
    exact_mod_cast h1'
  obtain ⟨a, b, hab, hb, ha', hb'⟩ := toFixedFrac_shape 3 pNum pDen
  refine ⟨a, b, ?_, hb, ha', hb'⟩
  unfold formatPercentFrac
  rw [if_neg (by omega), if_pos hge, hab]

/-- Witness for C6: the concrete conversion, and the 3-decimal band applied
at the concrete percentage 200/1024. -/
theorem rarityToPercent_multiplier_case_witness :
    rarityToPercent "2 x 1/1,024" = some "0.195%" ∧
    (∃ a b : String, formatPercentFrac 200 1024 = a ++ "." ++ b ++ "%" ∧
      b.length = 3 ∧ '.' ∉ a.data ∧ '.' ∉ b.data) :=
  ⟨rarityToPercent_multiplier_case.1,
   rarityToPercent_multiplier_case.2.2.2 200 1024 (by norm_num) (by norm_num)
     (by norm_num)⟩

/-- **C7.** `rarityToFraction` maps every probability `≥ 1` to `"Always"`,
every probability `≤ 0` to `"Never"`, renders every probability strictly
between 0 and 1 as `1/round(1/p)` with thousands separators, and the
round-trip from the string `"1/300"` through the string-to-decimal and
decimal-to-fraction conversions recovers `"1/300"`. -/
theorem rarityToFraction_spec :
    (∀ p : ℚ, 1 ≤ p → rarityToFraction p = "Always") ∧
    (∀ p : ℚ, p ≤ 0 → rarityToFraction p = "Never") ∧
    (∀ p : ℚ, 0 < p → p < 1 →
      rarityToFraction p = "1/" ++ toLocaleStr (jsRound (1 / p)).toNat) ∧
    (rarityToDecimal "1/300").map rarityToFraction = some "1/300" := by
  refine ⟨?_, ?_, ?_, ?_⟩
  · intro p h
    unfold rarityToFraction
    rw [if_pos h]
  · intro p h
    unfold rarityToFraction
    rw [if_neg (by linarith), if_pos h]
  · intro p h0 h1
    unfold rarityToFraction
    rw [if_neg (by linarith), if_neg (by linarith)]
  · have hp : rarityToDecimal "1/300" = some ((1 : ℚ) / 300) := by
      have h : rarityToDecimalParts "1/300" = some (1, 300) := by decide
      unfold rarityToDecimal
      rw [h]
      norm_num
    rw [hp]
    have h3 : rarityToFraction ((1 : ℚ) / 300) =
        "1/" ++ toLocaleStr (jsRound (1 / ((1 : ℚ) / 300))).toNat := by
      unfold rarityToFraction
      rw [if_neg (by norm_num), if_neg (by norm_num)]
    have h4 : (1 : ℚ) / ((1 : ℚ) / 300) = 300 := by norm_num
    have h5 : jsRound (300 : ℚ) = 300 := by
      unfold jsRound
      rw [show (300 : ℚ) + 1 / 2 = 601 / 2 from by norm_num, Int.floor_eq_iff]
      constructor
      · push_cast
        norm_num
      · push_cast
        norm_num
    rw [show Option.map rarityToFraction (some ((1 : ℚ) / 300)) =
        some (rarityToFraction ((1 : ℚ) / 300)) from rfl, h3, h4, h5]
    decide

/-- Witness for C7 at concrete probabilities: 2 renders `"Always"`, 0
renders `"Never"`, and 1/2 renders through the `1/round(1/p)` form. -/
theorem rarityToFraction_spec_witness :
    rarityToFraction 2 = "Always" ∧
    rarityToFraction 0 = "Never" ∧
    rarityToFraction ((1 : ℚ) / 2) =
      "1/" ++ toLocaleStr (jsRound (1 / ((1 : ℚ) / 2))).toNat :=
  ⟨rarityToFraction_spec.1 2 (by norm_num),
   rarityToFraction_spec.2.1 0 (by norm_num),
   rarityToFraction_spec.2.2.1 ((1 : ℚ) / 2) (by norm_num) (by norm_num)⟩

/-! ## Drop-table extraction (src/unnamed/part_001 lines 248–299 and
src/unnamed/part_000 lines 337–393)

The page is modelled at the DOM-sibling level (`cheerio` is the external
parsing collaborator): a list of top-level sibling nodes — headings with
their extracted text, `table.wikitable` nodes with their header-cell texts
and their already-parsed drop rows (cell-level row parsing happens at the
DOM boundary), and other nodes.  Both snapshots share everything except the
backward walk that attributes a category: part_001 takes the strictly
nearest preceding h2/h3/h4, part_000 tracks the best heading by level and
lets a farther h2 override a nearer h3/h4.  Both walks stop at an
intervening `table.wikitable` whose headers mention "rarity". -/

/-- A parsed drop-table row (`DropTableEntry`). -/
structure DropTableEntry where
  item : String
  quantity : String
  rarity : String
  rarityPercent : Option String
  deriving Repr, DecidableEq

/-- A top-level page node as the extractor sees it. -/
inductive PageNode where
  | heading (level : Nat) (text : String)
  | table (headers : List String) (drops : List DropTableEntry)
  | other
  deriving Repr, DecidableEq

/-- A table qualifies as a drop table: some header includes "item" and some
header includes "rarity" (headers trimmed and lowercased). -/
def isDropTableHdrs (headers : List String) : Bool :=
  headers.any (fun h => containsSub (toLowerStr (trimStr h)).data "item".data) &&
  headers.any (fun h => containsSub (toLowerStr (trimStr h)).data "rarity".data)

/-- The walk's stop test: a `table.wikitable` with some header whose
lowercased text includes "rarity". -/
def isRarityStopTable (headers : List String) : Bool :=
  headers.any (fun h => containsSub (toLowerStr h).data "rarity".data)

/-- The strictly-nearest walk of part_001 over the preceding siblings
(nearest first): the first h2/h3/h4 wins; an intervening rarity table stops
the walk with no heading. -/
def walkNearest : List PageNode → Option String
  | [] => none
  | PageNode.heading lvl text :: rest =>
    if lvl = 2 || lvl = 3 || lvl = 4 then some text else walkNearest rest
  | PageNode.table headers _ :: rest =>
    if isRarityStopTable headers then none else walkNearest rest
  | PageNode.other :: rest => walkNearest rest

/-- The level of the best heading found so far (5 when none). -/
def bestLevel : Option (Nat × String) → Nat
  | none => 5
  | some p => p.1

/-- The level-priority walk of part_000: h2 is authoritative and breaks; h3
and h4 only improve the tracked best; a rarity table stops the walk with
whatever best was found. -/
def walkPriorityGo : List PageNode → Option (Nat × String) → Option (Nat × String)
  | [], best => best
  | PageNode.heading 2 text :: _, _ => some (2, text)
  | PageNode.heading 3 text :: rest, best =>
    walkPriorityGo rest (if bestLevel best > 3 then some (3, text) else best)
  | PageNode.heading 4 text :: rest, best =>
    walkPriorityGo rest (if bestLevel best > 4 then some (4, text) else best)
  | PageNode.heading _ _ :: rest, best => walkPriorityGo rest best
  | PageNode.table headers _ :: rest, best =>
    if isRarityStopTable headers then best else walkPriorityGo rest best
  | PageNode.other :: rest, best => walkPriorityGo rest best

/-- part_000's walk, yielding the chosen heading text. -/
def walkPriority (pre : List PageNode) : Option String :=
  (walkPriorityGo pre none).map Prod.snd

/-- Apply a walk result to the running category: a found heading with
non-empty text becomes the category, otherwise the previous category
carries over. -/
def applyCat (cat : String) : Option String → String
  | some t => if t = "" then cat else t
  | none => cat

/-- Append drops to the section of the same category if one exists, else
push a new section (in encounter order). -/
def mergeSection : List (String × List DropTableEntry) → String →
    List DropTableEntry → List (String × List DropTableEntry)
  | [], cat, ds => [(cat, ds)]
  | (c, es) :: rest, cat, ds =>
    if c = cat then (c, es ++ ds) :: rest else (c, es) :: mergeSection rest cat ds

/-- The extraction loop over the sibling nodes, parameterized by the walk
variant: `cat` is the running category (initially `"Drops"`), `seenRev` the
preceding siblings nearest-first.  Non-qualifying tables and non-table nodes
are skipped; a qualifying table walks its preceding siblings, updates the
category, and contributes its drops when non-empty. -/
def extractGo (walk : List PageNode → Option String) :
    List PageNode → String → List (String × List DropTableEntry) →
    List PageNode → List (String × List DropTableEntry)
  | [], _, sections, _ => sections
  | PageNode.table headers drops :: rest, cat, sections, seenRev =>
    if isDropTableHdrs headers then
      extractGo walk rest (applyCat cat (walk seenRev))
        (if drops.isEmpty then sections
         else mergeSection sections (applyCat cat (walk seenRev)) drops)
        (PageNode.table headers drops :: seenRev)
    else extractGo walk rest cat sections (PageNode.table headers drops :: seenRev)
  | n :: rest, cat, sections, seenRev =>
    extractGo walk rest cat sections (n :: seenRev)

/-- `extractDropTable`, modulo the walk variant. -/
def extractDropTableSections (walk : List PageNode → Option String)
    (page : List PageNode) : List (String × List DropTableEntry) :=
  extractGo walk page "Drops" [] []

/-- A node the backward walk passes over without effect: a heading that is
not h2/h3/h4, a table without a rarity header, or any other node. -/
def passesWalk : PageNode → Bool
  | PageNode.heading lvl _ => !(lvl = 2 || lvl = 3 || lvl = 4)
  | PageNode.table headers _ => !(isRarityStopTable headers)
  | PageNode.other => true

/-- A node that is not a qualifying drop table (the extraction loop skips
it). -/
def notQualTable : PageNode → Bool
  | PageNode.table headers _ => !(isDropTableHdrs headers)
  | _ => true

theorem walkNearest_passes (l : List PageNode)
    (h : ∀ n ∈ l, passesWalk n = true) (rest : List PageNode) :
    walkNearest (l ++ rest) = walkNearest rest := by
  induction l with
  | nil => rfl
  | cons hd tl ih =>
    have hhd := h hd (by simp)
    have htl : ∀ n ∈ tl, passesWalk n = true := fun n hn => h n (by simp [hn])
    match hd with
    | PageNode.heading lvl text =>
      have : ¬ (lvl = 2 || lvl = 3 || lvl = 4) = true := by
        simpa [passesWalk] using hhd
      show walkNearest (PageNode.heading lvl text :: (tl ++ rest)) = _
      rw [show walkNearest (PageNode.heading lvl text :: (tl ++ rest)) =
          if lvl = 2 || lvl = 3 || lvl = 4 then some text
          else walkNearest (tl ++ rest) from rfl]
      rw [if_neg this]
      exact ih htl
    | PageNode.table headers drops =>
      have : ¬ isRarityStopTable headers = true := by
        simpa [passesWalk] using hhd
      show walkNearest (PageNode.table headers drops :: (tl ++ rest)) = _
      rw [show walkNearest (PageNode.table headers drops :: (tl ++ rest)) =
          if isRarityStopTable headers then none
          else walkNearest (tl ++ rest) from rfl]
      rw [if_neg this]
      exact ih htl
    | PageNode.other =>
      show walkNearest (PageNode.other :: (tl ++ rest)) = _
      rw [show walkNearest (PageNode.other :: (tl ++ rest)) =
          walkNearest (tl ++ rest) from rfl]
      exact ih htl

theorem extractGo_skips (walk : List PageNode → Option String)
    (m : List PageNode) (hm : ∀ n ∈ m, notQualTable n = true) :
    ∀ (rest : List PageNode) (cat : String) sections (seenRev : List PageNode),
    extractGo walk (m ++ rest) cat sections seenRev =
      extractGo walk rest cat sections (m.reverse ++ seenRev) := by
  induction m with
  | nil => intro rest cat sections seenRev; rfl
  | cons hd tl ih =>
    intro rest cat sections seenRev
    have hhd := hm hd (by simp)
    have htl : ∀ n ∈ tl, notQualTable n = true := fun n hn => hm n (by simp [hn])
    have hstep : extractGo walk ((hd :: tl) ++ rest) cat sections seenRev =
        extractGo walk (tl ++ rest) cat sections (hd :: seenRev) := by
      match hd with
      | PageNode.heading lvl text => rfl
      | PageNode.other => rfl
      | PageNode.table headers drops =>
        have : ¬ isDropTableHdrs headers = true := by
          simpa [notQualTable] using hhd
        show extractGo walk (PageNode.table headers drops :: (tl ++ rest))
            cat sections seenRev = _
        rw [show extractGo walk (PageNode.table headers drops :: (tl ++ rest))
            cat sections seenRev =
            if isDropTableHdrs headers then
              extractGo walk (tl ++ rest) (applyCat cat (walk seenRev))
                (if drops.isEmpty then sections
                 else mergeSection sections (applyCat cat (walk seenRev)) drops)
                (PageNode.table headers drops :: seenRev)
            else extractGo walk (tl ++ rest) cat sections
              (PageNode.table headers drops :: seenRev) from rfl]
        rw [if_neg this]
    rw [hstep, ih htl]
    congr 1
    simp

theorem extractGo_qual_table (walk : List PageNode → Option String)
    (headers : List String) (drops : List DropTableEntry)
    (rest : List PageNode) (cat : String) sections (seenRev : List PageNode)
    (hq : isDropTableHdrs headers = true) :
    extractGo walk (PageNode.table headers drops :: rest) cat sections seenRev =
      extractGo walk rest (applyCat cat (walk seenRev))
        (if drops.isEmpty then sections
         else mergeSection sections (applyCat cat (walk seenRev)) drops)
        (PageNode.table headers drops :: seenRev) := by
  rw [show extractGo walk (PageNode.table headers drops :: rest)
      cat sections seenRev =
      if isDropTableHdrs headers then
        extractGo walk rest (applyCat cat (walk seenRev))
          (if drops.isEmpty then sections
           else mergeSection sections (applyCat cat (walk seenRev)) drops)
          (PageNode.table headers drops :: seenRev)
      else extractGo walk rest cat sections
        (PageNode.table headers drops :: seenRev) from rfl]
  rw [if_pos hq]

theorem isEmpty_false_of_ne_nil {α : Type} {l : List α} (h : l ≠ []) :
    l.isEmpty = false := by
  cases l with
  | nil => exact absurd rfl h
  | cons a as => rfl

/-- The nearest-first walk finds the first h2/h3/h4 across passed-over
nodes. -/
theorem walkNearest_finds_heading (near : List PageNode) (lvl : Nat)
    (t : String) (rest : List PageNode)
    (hpass : ∀ n ∈ near, passesWalk n = true)
    (hlvl : lvl = 2 ∨ lvl = 3 ∨ lvl = 4) :
    walkNearest (near ++ PageNode.heading lvl t :: rest) = some t := by
  rw [walkNearest_passes near hpass]
  rw [show walkNearest (PageNode.heading lvl t :: rest) =
      if lvl = 2 || lvl = 3 || lvl = 4 then some t else walkNearest rest from rfl]
  rw [if_pos (by rcases hlvl with h | h | h <;> simp [h])]

/-- The nearest-first walk never crosses an intervening rarity table. -/
theorem walkNearest_stops_at_table (near : List PageNode)
    (headers : List String) (ds : List DropTableEntry) (rest : List PageNode)
    (hpass : ∀ n ∈ near, passesWalk n = true)
    (hstop : isRarityStopTable headers = true) :
    walkNearest (near ++ PageNode.table headers ds :: rest) = none := by
  rw [walkNearest_passes near hpass]
  rw [show walkNearest (PageNode.table headers ds :: rest) =
      if isRarityStopTable headers then none else walkNearest rest from rfl]
  rw [if_pos hstop]

/-- The page of the C5 counterexample: an h2, then a nearer h3, then one
qualifying drop table. -/
def pageCE : List PageNode :=
  [PageNode.heading 2 "Main drops", PageNode.heading 3 "Tertiary drops",
   PageNode.table ["Item", "Quantity", "Rarity"]
     [⟨"Bones", "1", "Always", some "100%"⟩]]

/-- **C5, counterexample to the claim as stated.** The level-priority
variant (src/unnamed/part_000, also cited by the claim) attributes the
table's drops to the more distant h2 "Main drops" even though the closer h3
"Tertiary drops" precedes the table — the nearest-heading description is
false of that variant. -/
theorem extractDropTable_priority_counterexample :
    (extractDropTableSections walkPriority pageCE).map Prod.fst =
      ["Main drops"] ∧
    walkNearest [PageNode.heading 3 "Tertiary drops",
      PageNode.heading 2 "Main drops"] = some "Tertiary drops" ∧
    ("Main drops" : String) ≠ "Tertiary drops" := by decide

/-- **C5 (amended).** For the strictly-nearest variant
(src/unnamed/part_001; the spec resolves the divergence in its favour): the
backward walk yields the nearest preceding h2/h3/h4 — never a more distant
higher-level heading once a closer heading exists — and never takes a
category from beyond an intervening rarity-header table; consequently, on a
page with two qualifying drop tables separated by an intervening heading,
each table's drops are attributed to its own nearest preceding heading.
(The superseded level-priority variant of part_000 violates this, see the
counterexample.) -/
theorem extractDropTable_nearest_heading :
    (∀ (near : List PageNode) (lvl : Nat) (t : String) (rest : List PageNode),
      (∀ n ∈ near, passesWalk n = true) → (lvl = 2 ∨ lvl = 3 ∨ lvl = 4) →
      walkNearest (near ++ PageNode.heading lvl t :: rest) = some t) ∧
    (∀ (near : List PageNode) (headers : List String)
        (ds : List DropTableEntry) (rest : List PageNode),
      (∀ n ∈ near, passesWalk n = true) → isRarityStopTable headers = true →
      walkNearest (near ++ PageNode.table headers ds :: rest) = none) ∧
    (∀ (m0 m1 m2 m3 : List PageNode) (lvl1 lvl2 : Nat) (t1 t2 : String)
        (hdr1 hdr2 : List String) (d1 d2 : List DropTableEntry),
      (∀ n ∈ m0, notQualTable n = true) →
      (∀ n ∈ m1, notQualTable n = true ∧ passesWalk n = true) →
      (∀ n ∈ m2, notQualTable n = true) →
      (∀ n ∈ m3, notQualTable n = true ∧ passesWalk n = true) →
      (lvl1 = 2 ∨ lvl1 = 3 ∨ lvl1 = 4) → (lvl2 = 2 ∨ lvl2 = 3 ∨ lvl2 = 4) →
      t1 ≠ "" → t2 ≠ "" → t1 ≠ t2 →
      isDropTableHdrs hdr1 = true → isDropTableHdrs hdr2 = true →
      d1 ≠ [] → d2 ≠ [] →
      extractDropTableSections walkNearest
          (m0 ++ (PageNode.heading lvl1 t1 :: (m1 ++ (PageNode.table hdr1 d1 ::
            (m2 ++ (PageNode.heading lvl2 t2 ::
              (m3 ++ [PageNode.table hdr2 d2]))))))) =
        [(t1, d1), (t2, d2)]) := by
  refine ⟨walkNearest_finds_heading, walkNearest_stops_at_table, ?_⟩
  intro m0 m1 m2 m3 lvl1 lvl2 t1 t2 hdr1 hdr2 d1 d2
    hm0 hm1 hm2 hm3 hlvl1 hlvl2 ht1 ht2 ht12 hq1 hq2 hd1 hd2
  unfold extractDropTableSections
  rw [extractGo_skips walkNearest m0 hm0]
  rw [show extractGo walkNearest
      (PageNode.heading lvl1 t1 :: (m1 ++ (PageNode.table hdr1 d1 ::
        (m2 ++ (PageNode.heading lvl2 t2 :: (m3 ++ [PageNode.table hdr2 d2]))))))
      "Drops" [] (m0.reverse ++ []) =
      extractGo walkNearest
      (m1 ++ (PageNode.table hdr1 d1 ::
        (m2 ++ (PageNode.heading lvl2 t2 :: (m3 ++ [PageNode.table hdr2 d2])))))
      "Drops" [] (PageNode.heading lvl1 t1 :: (m0.reverse ++ [])) from rfl]
  rw [extractGo_skips walkNearest m1 (fun n hn => (hm1 n hn).1)]
  rw [extractGo_qual_table _ _ _ _ _ _ _ hq1]
  have hwalk1 : walkNearest (m1.reverse ++
      PageNode.heading lvl1 t1 :: (m0.reverse ++ [])) = some t1 :=
    walkNearest_finds_heading _ _ _ _
      (fun n hn => (hm1 n (List.mem_reverse.mp hn)).2) hlvl1
  rw [hwalk1]
  rw [show applyCat "Drops" (some t1) = if t1 = "" then "Drops" else t1 from rfl,
    if_neg ht1]
  rw [if_neg (by rw [isEmpty_false_of_ne_nil hd1]; exact Bool.false_ne_true)]
  rw [show mergeSection [] t1 d1 = [(t1, d1)] from rfl]
  rw [extractGo_skips walkNearest m2 hm2]
  rw [show extractGo walkNearest
      (PageNode.heading lvl2 t2 :: (m3 ++ [PageNode.table hdr2 d2])) t1
      [(t1, d1)]
      (m2.reverse ++ (PageNode.table hdr1 d1 :: (m1.reverse ++
        (PageNode.heading lvl1 t1 :: (m0.reverse ++ []))))) =
      extractGo walkNearest (m3 ++ [PageNode.table hdr2 d2]) t1 [(t1, d1)]
      (PageNode.heading lvl2 t2 :: (m2.reverse ++ (PageNode.table hdr1 d1 ::
        (m1.reverse ++ (PageNode.heading lvl1 t1 :: (m0.reverse ++ []))))))
      from rfl]
  rw [extractGo_skips walkNearest m3 (fun n hn => (hm3 n hn).1)]
  rw [extractGo_qual_table _ _ _ _ _ _ _ hq2]
  have hwalk2 : walkNearest (m3.reverse ++
      PageNode.heading lvl2 t2 :: (m2.reverse ++ (PageNode.table hdr1 d1 ::
        (m1.reverse ++ (PageNode.heading lvl1 t1 :: (m0.reverse ++ [])))))) =
      some t2 :=
    walkNearest_finds_heading _ _ _ _
      (fun n hn => (hm3 n (List.mem_reverse.mp hn)).2) hlvl2
  rw [hwalk2]
  rw [show applyCat t1 (some t2) = if t2 = "" then t1 else t2 from rfl,
    if_neg ht2]
  rw [if_neg (by rw [isEmpty_false_of_ne_nil hd2]; exact Bool.false_ne_true)]
  rw [show mergeSection [(t1, d1)] t2 d2 =
      if t1 = t2 then (t1, d1 ++ d2) :: [] else (t1, d1) :: mergeSection [] t2 d2
      from rfl, if_neg ht12]
  rfl

/-- Witness for C5 at a concrete page: `h2 "Main drops"`, a qualifying
table, `h3 "Tertiary drops"`, a second qualifying table — each table's
drops land under its own nearest heading. -/
theorem extractDropTable_nearest_heading_witness :
    extractDropTableSections walkNearest
        ([] ++ (PageNode.heading 2 "Main drops" :: ([] ++
          (PageNode.table ["Item", "Quantity", "Rarity"]
            [⟨"Bones", "1", "Always", some "100%"⟩] ::
          ([] ++ (PageNode.heading 3 "Tertiary drops" :: ([] ++
            [PageNode.table ["Item", "Quantity", "Rarity"]
              [⟨"Clue scroll", "1", "1/128", some "0.781%"⟩]]))))))) =
      [("Main drops", [⟨"Bones", "1", "Always", some "100%"⟩]),
       ("Tertiary drops", [⟨"Clue scroll", "1", "1/128", some "0.781%"⟩])] :=
  extractDropTable_nearest_heading.2.2 [] [] [] [] 2 3
    "Main drops" "Tertiary drops" _ _ _ _
    (by simp) (by simp) (by simp) (by simp)
    (by left; rfl) (by right; left; rfl)
    (by decide) (by decide) (by decide) (by decide) (by decide)
    (by decide) (by decide)

/-! ## `truncateContent` (src/unnamed/part_000 lines 567–641)

Cut markdown content at a section boundary: if it fits, return unchanged;
otherwise reserve room for a fixed suffix, look for the latest markdown
heading (regex `\n#{2,3}\s+([^\n]+)`, via `matchAll` over a 500-character
lookahead region) starting at or before the target length, then for the
latest paragraph break keeping at least half the target, then hard-cut.
The regex engine's semantics (greedy `#{2,3}` and `\s+` with backtracking,
non-overlapping successive `matchAll` matches) are modelled exactly;
`fuel` arguments only bound iteration so the functions evaluate in the
kernel, and are always supplied large enough. -/

/-- The fixed truncation suffix appended by `truncateContent`. -/
def truncationMsg : String :=
  "\n\n---\n*[Content truncated. Use sections parameter to request specific sections, or increase max_content_length.]*"

/-- Match `\s+([^\n]+)` at the start of `l`, given `v` = the whitespace run
length still being tried: greedy `\s+` backtracks from the maximal run down
to one character until a non-empty `[^\n]+` capture follows.  Returns the
capture and the number of characters consumed. -/
def tryCapture (l : List Char) : Nat → Option (List Char × Nat)
  | 0 => none
  | v + 1 =>
    match l.drop (v + 1) with
    | [] => tryCapture l v
    | c :: rest =>
      if c = '\n' then tryCapture l v
      else
        some ((c :: rest).takeWhile (fun ch => ch ≠ '\n'),
          (v + 1) + ((c :: rest).takeWhile (fun ch => ch ≠ '\n')).length)

/-- Match `\s+([^\n]+)` at the start of `l`. -/
def matchWsCapture (l : List Char) : Option (List Char × Nat) :=
  tryCapture l (l.takeWhile isJsWs).length

/-- Match `\n#{2,3}\s+([^\n]+)` at the start of the list: a newline, a run
of exactly 2 or 3 `#` (a longer run cannot match, since after backtracking
`\s+` would face a `#`), then whitespace and the heading text capture. -/
def matchHeadingHere : List Char → Option (List Char × Nat)
  | '\n' :: rest =>
    let h := (rest.takeWhile (fun c => c = '#')).length
    if h = 2 ∨ h = 3 then
      match matchWsCapture (rest.drop h) with
      | some (cap, used) => some (cap, 1 + h + used)
      | none => none
    else none
  | _ => none

/-- First heading match at a position `≥ i` (fuel bounds the scan). -/
def scanFromAux (s : List Char) : Nat → Nat → Option (Nat × List Char × Nat)
  | _, 0 => none
  | i, fuel + 1 =>
    match matchHeadingHere (s.drop i) with
    | some (cap, used) => some (i, cap, i + used)
    | none => scanFromAux s (i + 1) fuel

/-- `matchAll`: successive non-overlapping matches, each search resuming at
the end of the previous match. -/
def matchAllAux (s : List Char) : Nat → Nat → List (Nat × List Char)
  | _, 0 => []
  | i, fuel + 1 =>
    match scanFromAux s i (s.length + 1 - i) with
    | none => []
    | some (j, cap, e) => (j, cap) :: matchAllAux s e fuel

/-- All matches of the heading regex over `s` with their indices and
captures, in increasing index order. -/
def headingMatches (s : List Char) : List (Nat × List Char) :=
  matchAllAux s 0 (s.length + 1)

/-- `content.lastIndexOf('\n\n', upTo)`: the largest index `≤ upTo` where a
double newline starts, if any. -/
def lastParaBreakAux (s : List Char) : Nat → Option Nat
  | 0 => if isPrefOf ['\n', '\n'] s then some 0 else none
  | i + 1 =>
    if isPrefOf ['\n', '\n'] (s.drop (i + 1)) then some (i + 1)
    else lastParaBreakAux s i

/-- The result record of `truncateContent`. -/
structure TruncateResult where
  content : String
  truncated : Bool
  originalLength : Nat
  truncatedAtSection : Option String
  deriving Repr, DecidableEq

/-- `truncateContent` (src/unnamed/part_000 lines 580–641). -/
def truncateContent (content : String) (maxLength : Nat) : TruncateResult :=
  let originalLength := content.length
  if originalLength ≤ maxLength then
    ⟨content, false, originalLength, none⟩
  else if maxLength ≤ truncationMsg.length then
    -- targetLength ≤ 0: nothing but the (trimmed) suffix survives
    ⟨trimStr truncationMsg, true, originalLength, none⟩
  else
    let target := maxLength - truncationMsg.length
    let searchRegion := content.data.take (target + 500)
    match ((headingMatches searchRegion).filter (fun p => p.1 ≤ target)).getLast? with
    | some (idx, cap) =>
      ⟨trimStr (String.mk (content.data.take idx)) ++ truncationMsg, true,
        originalLength, some (trimStr (String.mk cap))⟩
    | none =>
      match lastParaBreakAux content.data target with
      | some pb =>
        if target < 2 * pb then
          ⟨trimStr (String.mk (content.data.take pb)) ++ truncationMsg, true,
            originalLength, none⟩
        else
          ⟨trimStr (String.mk (content.data.take target)) ++ truncationMsg, true,
            originalLength, none⟩
      | none =>
        ⟨trimStr (String.mk (content.data.take target)) ++ truncationMsg, true,
          originalLength, none⟩

/-- **C8.** If the content fits within `maxLength` it is returned unchanged
with `truncated = false`; if the content is longer than `maxLength` (with
room for the suffix) and a markdown heading starts at or before the cut
point `maxLength - suffix` (searched in the code's 500-character lookahead
region), then the result reports `truncated = true` and `truncatedAtSection`
is the trimmed text of the latest such heading. -/
theorem truncateContent_spec :
    (∀ (content : String) (maxLength : Nat),
      content.length ≤ maxLength →
      truncateContent content maxLength = ⟨content, false, content.length, none⟩) ∧
    (∀ (content : String) (maxLength idx : Nat) (cap : List Char),
      maxLength < content.length →
      truncationMsg.length < maxLength →
      ((headingMatches (content.data.take
          (maxLength - truncationMsg.length + 500))).filter
        (fun p => p.1 ≤ maxLength - truncationMsg.length)).getLast? =
        some (idx, cap) →
      (truncateContent content maxLength).truncated = true ∧
      (truncateContent content maxLength).truncatedAtSection =
        some (trimStr (String.mk cap))) := by
  constructor
  · intro content maxLength h
    unfold truncateContent
    rw [if_pos h]
  · intro content maxLength idx cap hlong hroom hlast
    have e : truncateContent content maxLength =
        ⟨trimStr (String.mk (content.data.take idx)) ++ truncationMsg, true,
          content.length, some (trimStr (String.mk cap))⟩ := by
      unfold truncateContent
      rw [if_neg (by omega), if_neg (by omega)]
      simp only [hlast]
    rw [e]
    exact ⟨rfl, rfl⟩

/-- The C8 witness content: a heading early on, then filler that pushes the
length past the limit. -/
def truncWitnessContent : String :=
  "Intro\n## Strategy\n" ++ String.mk (List.replicate 250 'x')

set_option maxRecDepth 40000 in
/-- Witness for C8 at concrete inputs: short content passes through
unchanged; long content with the heading `## Strategy` before the cut point
reports `truncated = true` at section `"Strategy"`. -/
theorem truncateContent_spec_witness :
    truncateContent "short" 100 = ⟨"short", false, 5, none⟩ ∧
    (truncateContent truncWitnessContent 200).truncated = true ∧
    (truncateContent truncWitnessContent 200).truncatedAtSection =
      some "Strategy" := by
  have h2 := truncateContent_spec.2 truncWitnessContent 200 5 "Strategy".data
    (by decide) (by decide) (by decide)
  refine ⟨truncateContent_spec.1 "short" 100 (by decide), h2.1, ?_⟩
  rw [h2.2]
  decide

end McpOsrs
